import Mathlib

set_option maxRecDepth 100000

/-!
Verification of the voice2text-vietnamese client core against its
natural-language specification.  The definitions below are shallow
embeddings of the TypeScript/JavaScript sources
(`src/frontend/src/lib/audio-utils.ts`,
`src/frontend/src/hooks/useTranscription.ts`,
`src/frontend/src/hooks/useTranscribe.ts`,
`src/frontend/public/pcm-processor.js`,
the zustand transcription slice) and, where the backend buffering engine
is absent from the sources, a model built from the specification text.
JavaScript numbers are modelled either as exact rationals (where the
claims are about exact real arithmetic) or, where the 32-bit / 64-bit
floating-point rounding is semantically decisive, as exact dyadic
numbers `m * 2^e` together with an explicit binary
round-to-nearest-even operation.
-/

namespace Voice2Text

/-! ## Exact model of binary floating-point rounding

JavaScript arithmetic is IEEE-754 binary64; storing a number into a
`Float32Array` rounds it to binary32.  A floating-point value is
modelled as a dyadic number `m * 2^e`; `rndQ p num den` rounds the
rational `num / den` to the nearest floating-point value with a `p`-bit
significand (round half to even), with unbounded exponent range — all
values appearing in the audio conversions are far away from overflow
and subnormal territory, where this agrees with IEEE-754. -/

/-- A dyadic number `m * 2^e`, the exact value of a binary float. -/
structure Dy where
  m : ℤ
  e : ℤ
  deriving DecidableEq, Repr

/-- Fuel-driven bit length: `natBitsAux fuel n` is the number of binary
digits of `n`, provided `fuel ≥ n`. -/
def natBitsAux : ℕ → ℕ → ℕ
  | 0, _ => 0
  | fuel+1, n => if n = 0 then 0 else natBitsAux fuel (n / 2) + 1

/-- Number of binary digits of `n` (`0` for `n = 0`). -/
def natBits (n : ℕ) : ℕ := natBitsAux n n

/-- Whether `2^c ≤ a / d`, for natural `a`, `d` and integer `c`. -/
def pow2Le (c : ℤ) (a d : ℕ) : Bool :=
  if 0 ≤ c then decide (d * 2 ^ c.toNat ≤ a) else decide (d ≤ a * 2 ^ (-c).toNat)

/-- The binary exponent of the positive rational `a / d`: the unique
`e` with `2^e ≤ a/d < 2^(e+1)`, located from the bit lengths. -/
def ratExpND (a d : ℕ) : ℤ :=
  let c : ℤ := (natBits a : ℤ) - (natBits d : ℤ)
  if pow2Le c a d then c else c - 1

/-- Round the quotient `a / b` (with `b ≠ 0`) to the nearest natural
number, ties to even. -/
def natRHE (a b : ℕ) : ℕ :=
  let q := a / b
  let r := a % b
  if 2 * r < b then q
  else if b < 2 * r then q + 1
  else if q % 2 = 0 then q else q + 1

/-- Round the rational `num / den` to the nearest binary float with a
`p`-bit significand, round half to even. -/
def rndQ (p : ℕ) (num : ℤ) (den : ℕ) : Dy :=
  if num = 0 ∨ den = 0 then ⟨0, 0⟩
  else
    let a := num.natAbs
    let e := ratExpND a den
    let s : ℤ := (p : ℤ) - 1 - e
    let m : ℕ := if 0 ≤ s then natRHE (a * 2 ^ s.toNat) den else natRHE a (den * 2 ^ (-s).toNat)
    ⟨if num < 0 then -(m : ℤ) else (m : ℤ), -s⟩

/-- Numerator of a dyadic number viewed as a fraction over `dyDen`. -/
def dyNum (d : Dy) : ℤ := if 0 ≤ d.e then d.m * 2 ^ d.e.toNat else d.m

/-- Denominator (a power of two) of a dyadic number. -/
def dyDen (d : Dy) : ℕ := if 0 ≤ d.e then 1 else 2 ^ (-d.e).toNat

/-- Round an exact dyadic value to a `p`-bit significand. -/
def rndDy (p : ℕ) (d : Dy) : Dy := rndQ p (dyNum d) (dyDen d)

/-- Numeric `≤` on dyadic values. -/
def dyLE (x y : Dy) : Bool := decide (dyNum x * (dyDen y : ℤ) ≤ dyNum y * (dyDen x : ℤ))

/-- Numeric `<` on dyadic values. -/
def dyLT (x y : Dy) : Bool := decide (dyNum x * (dyDen y : ℤ) < dyNum y * (dyDen x : ℤ))

/-- JavaScript `Math.min` on two floats. -/
def dyMin (x y : Dy) : Dy := if dyLE x y then x else y

/-- JavaScript `Math.max` on two floats. -/
def dyMax (x y : Dy) : Dy := if dyLE x y then y else x

/-- The float holding the integer `n`. -/
def dyInt (n : ℤ) : Dy := ⟨n, 0⟩

/-- The exact rational value of a dyadic number (used in statements and
proofs only). -/
def dyVal (d : Dy) : ℚ := (d.m : ℚ) * 2 ^ d.e

/-- Truncation of a float toward zero, as performed by ECMAScript
`ToIntegerOrInfinity`. -/
def dyTrunc (d : Dy) : ℤ :=
  if 0 ≤ d.e then d.m * 2 ^ d.e.toNat
  else
    let q : ℕ := d.m.natAbs / 2 ^ (-d.e).toNat
    if d.m < 0 then -(q : ℤ) else (q : ℤ)

/-- ECMAScript `ToInt16`: wrap an integer into `[-2^15, 2^15)`. -/
def toInt16Wrap (t : ℤ) : ℤ :=
  let w := t % 65536
  if 32768 ≤ w then w - 65536 else w

/-! ## audio-utils.ts: `int16ToFloat32` and `float32ToInt16` -/

/-- One sample of `int16ToFloat32` (audio-utils.ts): the int16 sample is
divided by `0x8000` when negative and by `0x7FFF` otherwise (a binary64
division), and the quotient is stored into a `Float32Array` (a rounding
to binary32). -/
def int16ToFloat32Sample (s : ℤ) : Dy :=
  rndDy 24 (rndQ 53 s (if s < 0 then 32768 else 32767))

/-- One sample of `float32ToInt16` (audio-utils.ts): clamp to `[-1, 1]`,
multiply by `0x8000` when negative and by `0x7FFF` otherwise (a binary64
multiplication), and store into an `Int16Array` (truncate and wrap). -/
def float32ToInt16Sample (f : Dy) : ℤ :=
  let c := dyMax (dyInt (-1)) (dyMin (dyInt 1) f)
  let k : ℤ := if dyLT c (dyInt 0) then 32768 else 32767
  toInt16Wrap (dyTrunc (rndDy 53 ⟨c.m * k, c.e⟩))

/-- `int16ToFloat32` over a whole array. -/
def int16ToFloat32 (l : List ℤ) : List Dy := l.map int16ToFloat32Sample

/-- `float32ToInt16` over a whole array. -/
def float32ToInt16 (l : List Dy) : List ℤ := l.map float32ToInt16Sample

/-! ## audio-utils.ts: `calculateRmsVolume`

The RMS volume is `sqrt` of the mean of the squared (normalized)
samples; the mean of squares is computed exactly in `ℚ` and the square
root is taken in `ℝ` in the statements.  `calculateRmsVolume` treats an
empty array as `0` and normalizes Int16 samples by dividing by
`0x7FFF = 32767`. -/

/-- Mean of the squared samples of a `Float32Array` input of
`calculateRmsVolume` (audio-utils.ts); the final result is the square
root of this value, and `0` for an empty array (`0 / 0 = 0`). -/
def rmsMeanSqFloat (samples : List ℚ) : ℚ :=
  (samples.map fun s => s * s).sum / samples.length

/-- Mean of the squared normalized samples of an `Int16Array` input of
`calculateRmsVolume` (audio-utils.ts): each sample is divided by
`0x7FFF` before squaring. -/
def rmsMeanSqInt16 (samples : List ℤ) : ℚ :=
  (samples.map fun s => ((s : ℚ) / 32767) * ((s : ℚ) / 32767)).sum / samples.length

/-! ## audio-utils.ts: `downsample` -/

/-- `downsample` (audio-utils.ts): returns the input unchanged when the
source rate equals or is below the target rate; otherwise resamples by
linear interpolation at positions `i * ratio` with
`ratio = sourceSampleRate / targetSampleRate`, the upper index clamped
to the last sample. -/
def downsample (samples : List ℚ) (sourceSampleRate : ℚ) (targetSampleRate : ℚ := 16000) :
    List ℚ :=
  if sourceSampleRate = targetSampleRate then samples
  else if sourceSampleRate < targetSampleRate then samples
  else
    let ratio := sourceSampleRate / targetSampleRate
    let newLength : ℕ := (⌊(samples.length : ℚ) / ratio⌋).toNat
    (List.range newLength).map fun i : ℕ =>
      let srcIndex : ℚ := (i : ℚ) * ratio
      let srcIndexFloor : ℕ := (⌊srcIndex⌋).toNat
      let srcIndexCeil : ℕ := min (srcIndexFloor + 1) (samples.length - 1)
      let fraction : ℚ := srcIndex - ⌊srcIndex⌋
      samples.getD srcIndexFloor 0 * (1 - fraction) + samples.getD srcIndexCeil 0 * fraction

/-! ## Wire messages sent by the client hooks

The JSON text frames the hooks build are modelled as association lists
of string keys to JSON values. -/

/-- A JSON scalar appearing in the client's control messages. -/
inductive JsonVal
  | jstr (s : String)
  | jnum (q : ℚ)
  deriving DecidableEq, Repr

/-- The config message built by `useTranscription` (useTranscription.ts)
when the socket opens: type, model and the hook's `sampleRate` option. -/
def useTranscriptionConfigMsg (model : String) (sampleRate : ℚ) : List (String × JsonVal) :=
  [("type", .jstr "config"), ("model", .jstr model), ("sample_rate", .jnum sampleRate)]

/-- Default of the `sampleRate` option of `useTranscription`. -/
def defaultSampleRate : ℚ := 16000

/-- Resolution of the optional `sampleRate` option of `useTranscription`
(`sampleRate = 16000` in the destructuring default). -/
def resolveSampleRate (opt : Option ℚ) : ℚ := opt.getD defaultSampleRate

/-- The config message `useTranscribe` (useTranscribe.ts) sends in its
`onOpen` handler and on model change: only `type` and `model`. -/
def useTranscribeConfigMsg (currentModel : String) : List (String × JsonVal) :=
  [("type", .jstr "config"), ("model", .jstr currentModel)]

/-- The config message `useTranscriptionSocket` (useTranscription.ts)
sends in its `onOpen` handler and on model change: only `type` and
`model`. -/
def socketConfigMsg (currentModel : String) : List (String × JsonVal) :=
  [("type", .jstr "config"), ("model", .jstr currentModel)]

/-- JavaScript `String.prototype.trim`: strip leading and trailing
whitespace. -/
def jsTrim (s : String) : String :=
  ⟨((s.data.dropWhile Char.isWhitespace).reverse.dropWhile Char.isWhitespace).reverse⟩

/-! ## useTranscription.ts: the transcription-result message handler

The handler of the basic `useTranscription` hook keeps an interim text,
a list of finalized segments, and a derived full transcript. -/

/-- State kept by `useTranscription`'s message-handling effect. -/
structure TranscriptionHookState where
  interimText : String
  finalizedSegments : List String
  fullTranscript : String
  deriving DecidableEq, Repr

/-- A parsed transcription result message. -/
structure TranscriptionResponse where
  text : String
  is_final : Bool
  deriving DecidableEq, Repr

/-- The body of `useTranscription`'s incoming-message effect
(useTranscription.ts): a final result clears the interim text and
appends the trimmed text to the finalized segments when non-empty; a
non-final result replaces the interim text; the full transcript joins
the non-empty pieces with spaces. -/
def handleTranscriptionResponse (st : TranscriptionHookState) (r : TranscriptionResponse) :
    TranscriptionHookState :=
  let newInterim := if r.is_final then "" else r.text
  let newSegments :=
    if r.is_final then
      if (jsTrim r.text) ≠ "" then st.finalizedSegments ++ [(jsTrim r.text)] else st.finalizedSegments
    else st.finalizedSegments
  let full := String.intercalate " " ((newSegments ++ [newInterim]).filter fun s => s ≠ "")
  ⟨newInterim, newSegments, full⟩

/-! ## useTranscription.ts: `sendAudio` backpressure queue

When the socket is not open and queuing is enabled, `sendAudio` pushes
the chunk and drops the oldest queued chunk (a `shift`) when the queue
exceeds `maxQueueSize`, warning in that case, and returns `true`. -/

/-- Result of the not-open branch of `sendAudio`: the new queue, whether
an overflow warning was logged, and the returned boolean. -/
structure SendAudioResult (α : Type) where
  queue : List α
  warned : Bool
  returned : Bool

/-- The not-connected, queuing-enabled branch of `sendAudio`
(useTranscription.ts): append the chunk, drop the oldest chunk with a
warning when the queue length exceeds `maxQueueSize`, return `true`. -/
def sendAudioNotOpenQueue {α : Type} (queue : List α) (maxQueueSize : ℕ) (chunk : α) :
    SendAudioResult α :=
  let q := queue ++ [chunk]
  if maxQueueSize < q.length then ⟨q.drop 1, true, true⟩ else ⟨q, false, true⟩

/-! ## The zustand transcription slice and `useTranscriptionSocket` -/

/-- A line of the `finalTexts` list of the transcription slice; the `id`
comes from `crypto.randomUUID()` and the timestamp from `Date.now()`,
modelled as inputs. -/
structure TranscriptLine where
  id : String
  text : String
  timestamp : ℚ
  isFinal : Bool
  deriving DecidableEq, Repr

/-- The transcription-related state of the zustand store. -/
structure StoreState where
  partialText : String
  finalTexts : List TranscriptLine
  latency : ℚ
  deriving DecidableEq, Repr

/-- Store action `setPartialText` (transcription slice). -/
def setPartialText (st : StoreState) (t : String) : StoreState :=
  { st with partialText := t }

/-- Store action `addFinalText` (transcription slice): append a new
final line and clear the partial text. -/
def addFinalText (st : StoreState) (t : String) (freshId : String) (now : ℚ) : StoreState :=
  { st with finalTexts := st.finalTexts ++ [⟨freshId, t, now, true⟩], partialText := "" }

/-- Store action `setLatency` (transcription slice). -/
def setLatency (st : StoreState) (l : ℚ) : StoreState :=
  { st with latency := l }

/-- A server-to-client message as classified by
`useTranscriptionSocket`'s message effect: a parsed message with a
known or unknown `type`, or an unparseable (malformed JSON) frame. -/
inductive ServerMsg
  | transcription (text : String) (isFinal : Bool) (latency : Option ℚ)
  | errorMsg (code : String) (message : String)
  | modelLoaded (model : String)
  | unknownType (ty : String)
  | malformed
  deriving DecidableEq, Repr

/-- An observable side effect of the message handler. -/
inductive HandlerEffect
  | logError (s : String)
  | logInfo (s : String)
  | closeConnection
  deriving DecidableEq, Repr

/-- The body of `useTranscriptionSocket`'s incoming-message effect
(useTranscription.ts): transcription messages update the store via the
slice actions; `error`, `model_loaded`, unknown types and malformed
JSON only log and never touch the store or close the connection. -/
def handleSocketMessage (st : StoreState) (m : ServerMsg) (freshId : String) (now : ℚ) :
    StoreState × List HandlerEffect :=
  match m with
  | .transcription text fin lat =>
      let st1 :=
        if fin then
          if jsTrim text ≠ "" then addFinalText st text freshId now else st
        else setPartialText st text
      let st2 :=
        match lat with
        | some l => setLatency st1 l
        | none => st1
      (st2, [])
  | .errorMsg code message => (st, [.logError (code ++ " - " ++ message)])
  | .modelLoaded model => (st, [.logInfo model])
  | .unknownType ty => (st, if ty = "pong" then [] else [.logInfo ty])
  | .malformed => (st, [.logError "parse failure"])

/-! ## Model-change effects of `useTranscribe` and `useTranscriptionSocket`

React re-runs an effect only when an entry of its dependency array
changed (`Object.is` comparison); setting the bound model to its
current value leaves `currentModel` unchanged, so the effect body does
not run at all.  The two functions below embed one model-set event:
the resulting client state and the list of config frames sent. -/

/-- Client state of `useTranscribe` relevant to its model-change
effect. -/
structure TranscribeClient where
  model : String
  connected : Bool
  deriving DecidableEq, Repr

/-- One model-set event against `useTranscribe` (useTranscribe.ts): its
model-change effect has dependency array `[currentModel, readyState,
sendMessage]`, so the (unguarded) body runs only when the model
actually changed, and then re-sends the config when connected. -/
def transcribeSetModel (st : TranscribeClient) (m : String) :
    TranscribeClient × List (List (String × JsonVal)) :=
  if m = st.model then ({ st with model := m }, [])
  else ({ st with model := m }, if st.connected then [useTranscribeConfigMsg m] else [])

/-- Client state of `useTranscriptionSocket` relevant to its
model-change effect: the connection flag, whether config was sent, the
store's current model and the `currentModelRef` shadow copy. -/
structure SocketClient where
  connected : Bool
  configSent : Bool
  model : String
  refModel : String
  deriving DecidableEq, Repr

/-- One model-set event against `useTranscriptionSocket`
(useTranscription.ts): the effect re-runs when `currentModel` changed
and its body additionally requires `isConnected`, `configSentRef` and
`currentModel !== currentModelRef.current` before sending a config
frame and updating the ref. -/
def socketSetModel (st : SocketClient) (m : String) :
    SocketClient × List (List (String × JsonVal)) :=
  if m = st.model then ({ st with model := m }, [])
  else
    let st' := { st with model := m }
    if st'.connected && st'.configSent && decide (m ≠ st'.refModel) then
      ({ st' with refModel := m }, [socketConfigMsg m])
    else (st', [])

/-! ## pcm-processor.js: the PCM worklet -/

/-- Number of samples per posted chunk (`this.bufferSize = 4096`). -/
def pcmBufferSize : ℕ := 4096

/-- State of the PCM worklet: the samples written so far
(`bytesWritten` is its length). -/
structure PCMProcessorState where
  buffer : List Dy
  deriving Repr

/-- `PCMProcessor.flush` (pcm-processor.js): convert the `bytesWritten`
buffered float32 samples to int16 (clamp and scale, exactly the
`float32ToInt16` per-sample conversion), post them, and reset the
buffer. -/
def pcmFlush (st : PCMProcessorState) : List ℤ × PCMProcessorState :=
  (st.buffer.map float32ToInt16Sample, ⟨[]⟩)

/-- Loop body of `PCMProcessor.process` (pcm-processor.js): append each
incoming sample and flush whenever the buffer reaches `bufferSize`,
collecting the posted frames. -/
def pcmProcessGo : List Dy → List Dy → List (List ℤ) → List Dy × List (List ℤ)
  | [], buf, acc => (buf, acc)
  | x :: rest, buf, acc =>
      let buf' := buf ++ [x]
      if pcmBufferSize ≤ buf'.length then
        pcmProcessGo rest [] (acc ++ [buf'.map float32ToInt16Sample])
      else pcmProcessGo rest buf' acc

/-- `PCMProcessor.process` on one input block: the final worklet state
and the list of posted frames. -/
def pcmProcess (st : PCMProcessorState) (channelData : List Dy) :
    PCMProcessorState × List (List ℤ) :=
  let r := pcmProcessGo channelData st.buffer []
  (⟨r.1⟩, r.2)

/-- Little-endian byte serialization of one int16 sample, as laid out in
an `Int16Array`'s backing buffer. -/
def int16LEBytes (s : ℤ) : List ℕ :=
  let u := (s % 65536).toNat
  [u % 256, u / 256]

/-- The bytes of an `Int16Array`'s backing buffer. -/
def int16ArrayBytes (frame : List ℤ) : List ℕ :=
  (frame.map int16LEBytes).flatten

/-- `sendAudio` of `useTranscriptionSocket` (useTranscription.ts): the
binary frame sent is the byte-exact slice of the `Int16Array`'s
underlying buffer (`buffer.slice(byteOffset, byteOffset +
byteLength)`). -/
def sendAudioSocketFrame (audioData : List ℤ) : List ℕ :=
  int16ArrayBytes audioData

/-! ## The Buffering & Segmentation Engine -/

/-- Modelled from the spec: the backend Buffering & Segmentation Engine
of spec section 4.1 is not among the sources (only the frontend is);
this `BufferPolicy` carries its five configuration fields. -/
structure BufferPolicy where
  minDurationMs : ℚ
  maxDurationMs : ℚ
  silenceThresholdEnergy : ℚ
  silenceWindowMs : ℚ
  decodeIntervalMs : ℚ
  deriving DecidableEq, Repr

/-- Modelled from the spec: buffered duration in milliseconds of a list
of samples at 16 kHz mono (16 samples per millisecond). -/
def durationMs (samples : List ℚ) : ℚ := (samples.length : ℚ) / 16

/-- Modelled from the spec: mean of squared samples (zero on an empty
list); the RMS energy is its square root. -/
def meanSq (l : List ℚ) : ℚ := (l.map fun x => x * x).sum / (l.length : ℚ)

/-- Modelled from the spec: the trailing `silenceWindowMs` worth of
samples of the buffer. -/
def trailingWindow (p : BufferPolicy) (samples : List ℚ) : List ℚ :=
  samples.drop (samples.length - (⌊p.silenceWindowMs * 16⌋).toNat)

/-- Modelled from the spec: the silence test compares the RMS energy of
the trailing window against `silenceThresholdEnergy`; since
`sqrt m < t ↔ m < t^2` for `0 < t` (and is impossible for `t ≤ 0`),
it is expressed with the exact mean square. -/
def silenceDetected (p : BufferPolicy) (samples : List ℚ) : Prop :=
  0 < p.silenceThresholdEnergy ∧
    meanSq (trailingWindow p samples) < p.silenceThresholdEnergy ^ 2

instance (p : BufferPolicy) (samples : List ℚ) : Decidable (silenceDetected p samples) := by
  unfold silenceDetected
  infer_instance

/-- Modelled from the spec: the decision returned by `push` — no flush,
or a flushed segment marked partial (`isFinal = false`) or final. -/
inductive FlushDecision
  | noFlush
  | flush (samples : List ℚ) (isFinal : Bool)
  deriving DecidableEq, Repr

/-- Modelled from the spec (section 4.1 algorithm): on each `push`,
append the frame; if `decodeIntervalMs > 0` and the buffered duration
reached it, flush a partial segment; otherwise, once the duration
reached `minDurationMs` and the trailing energy is below the silence
threshold, flush a final segment; if the duration reached
`maxDurationMs` before silence was detected, force-flush a final
segment; otherwise keep buffering.  The buffer is cleared after every
flush. -/
def push (p : BufferPolicy) (buffer : List ℚ) (frame : List ℚ) : FlushDecision × List ℚ :=
  let b := buffer ++ frame
  if 0 < p.decodeIntervalMs ∧ p.decodeIntervalMs ≤ durationMs b then (.flush b false, [])
  else if p.minDurationMs ≤ durationMs b ∧ silenceDetected p b then (.flush b true, [])
  else if p.maxDurationMs ≤ durationMs b then (.flush b true, [])
  else (.noFlush, b)

/-- Policy of the C1 counterexample: `maxDurationMs = 1`, silence and
interval triggers disabled. -/
def c1Policy : BufferPolicy := ⟨3000, 1, 0, 500, 0⟩

/-- Frame of the C1 counterexample: 2 ms (32 samples) of full-scale
audio pushed as a single frame. -/
def c1Frame : List ℚ := List.replicate 32 1

end Voice2Text

namespace Voice2Text

/-! ## Helper lemmas -/

theorem durationMs_append (a b : List ℚ) : durationMs (a ++ b) = durationMs a + durationMs b := by
  simp only [durationMs, List.length_append]
  push_cast
  ring

theorem durationMs_nonneg (l : List ℚ) : 0 ≤ durationMs l := by
  have : (0 : ℚ) ≤ (l.length : ℚ) := by positivity
  simpa [durationMs] using by positivity

theorem int16ArrayBytes_length (frame : List ℤ) :
    (int16ArrayBytes frame).length = 2 * frame.length := by
  induction frame with
  | nil => simp [int16ArrayBytes]
  | cons x l ih =>
      simp [int16ArrayBytes, int16LEBytes, List.length_append] at ih ⊢
      omega

/-! ## Claim theorems -/

/-- C2 (counterexample): the spec claims every config frame sent on
connection open carries `sample_rate = 16000`; the config frame
`useTranscribe` sends in its `onOpen` handler has no `sample_rate`
field at all. -/
theorem config_sample_rate_missing :
    (useTranscribeConfigMsg "zipformer").lookup "sample_rate" = none := by
  rfl

/-- C2 (amended): the config frame `useTranscription` sends on open
carries `type`, `model` and `sample_rate` equal to its `sampleRate`
option, which defaults to 16000 when the option is omitted; the config
frames `useTranscribe` and `useTranscriptionSocket` send on open carry
only `type` and `model` and no `sample_rate` field. -/
theorem config_message_fields (model : String) (opt : Option ℚ) :
    (useTranscriptionConfigMsg model (resolveSampleRate opt)).lookup "sample_rate"
        = some (.jnum (opt.getD 16000)) ∧
    (useTranscriptionConfigMsg model (resolveSampleRate opt)).lookup "type"
        = some (.jstr "config") ∧
    (useTranscriptionConfigMsg model (resolveSampleRate opt)).lookup "model"
        = some (.jstr model) ∧
    resolveSampleRate none = 16000 ∧
    useTranscribeConfigMsg model = [("type", .jstr "config"), ("model", .jstr model)] ∧
    (useTranscribeConfigMsg model).lookup "sample_rate" = none ∧
    socketConfigMsg model = [("type", .jstr "config"), ("model", .jstr model)] := by
  exact ⟨rfl, rfl, rfl, rfl, rfl, rfl, rfl⟩

/-- C3: a non-final result replaces the interim text and leaves the
finalized segments unchanged; a final result clears the interim text
and appends the trimmed text to the finalized segments exactly when the
trimmed text is non-empty, never modifying previously finalized
segments. -/
theorem transcription_result_handler (st : TranscriptionHookState) (r : TranscriptionResponse) :
    (r.is_final = false →
      (handleTranscriptionResponse st r).interimText = r.text ∧
      (handleTranscriptionResponse st r).finalizedSegments = st.finalizedSegments) ∧
    (r.is_final = true →
      (handleTranscriptionResponse st r).interimText = "" ∧
      ((jsTrim r.text) ≠ "" →
        (handleTranscriptionResponse st r).finalizedSegments
          = st.finalizedSegments ++ [(jsTrim r.text)]) ∧
      ((jsTrim r.text) = "" →
        (handleTranscriptionResponse st r).finalizedSegments = st.finalizedSegments)) := by
  constructor
  · intro h
    simp [handleTranscriptionResponse, h]
  · intro h
    refine ⟨by simp [handleTranscriptionResponse, h], ?_, ?_⟩
    · intro ht
      simp [handleTranscriptionResponse, h, ht]
    · intro ht
      simp [handleTranscriptionResponse, h, ht]

/-- C3 (witness): the handler applied to a concrete state and a concrete
final result with trimmable text. -/
theorem transcription_result_handler_witness :
    ((⟨" hi ", true⟩ : TranscriptionResponse).is_final = true) ∧
    (handleTranscriptionResponse ⟨"abc", ["x"], "x abc"⟩ ⟨" hi ", true⟩).interimText = "" ∧
    (handleTranscriptionResponse ⟨"abc", ["x"], "x abc"⟩ ⟨" hi ", true⟩).finalizedSegments
      = ["x", "hi"] := by
  have h := transcription_result_handler ⟨"abc", ["x"], "x abc"⟩ ⟨" hi ", true⟩
  refine ⟨rfl, (h.2 rfl).1, ?_⟩
  have h2 := (h.2 rfl).2.1 (by decide)
  rw [h2]
  decide

/-- C4: when the socket is not open and queuing is enabled, `sendAudio`
appends the chunk, drops the oldest chunk with a warning exactly when
the queue then exceeds `maxQueueSize`, keeps the queue at no more than
`maxQueueSize` chunks, and returns `true`. -/
theorem sendAudio_queue_bounded {α : Type} (queue : List α) (maxQueueSize : ℕ) (chunk : α)
    (h : queue.length ≤ maxQueueSize) :
    (sendAudioNotOpenQueue queue maxQueueSize chunk).queue.length ≤ maxQueueSize ∧
    (sendAudioNotOpenQueue queue maxQueueSize chunk).returned = true ∧
    (queue.length < maxQueueSize →
      (sendAudioNotOpenQueue queue maxQueueSize chunk).queue = queue ++ [chunk] ∧
      (sendAudioNotOpenQueue queue maxQueueSize chunk).warned = false) ∧
    (queue.length = maxQueueSize →
      (sendAudioNotOpenQueue queue maxQueueSize chunk).queue = (queue ++ [chunk]).drop 1 ∧
      (sendAudioNotOpenQueue queue maxQueueSize chunk).warned = true) := by
  unfold sendAudioNotOpenQueue
  by_cases hov : maxQueueSize < (queue ++ [chunk]).length
  · rw [if_pos hov]
    simp only [List.length_append, List.length_singleton] at hov
    refine ⟨?_, rfl, ?_, ?_⟩
    · simp only [List.length_drop, List.length_append, List.length_singleton]
      omega
    · intro hlt; omega
    · intro _; exact ⟨rfl, rfl⟩
  · rw [if_neg hov]
    simp only [List.length_append, List.length_singleton] at hov
    refine ⟨?_, rfl, ?_, ?_⟩
    · simp only [List.length_append, List.length_singleton]
      omega
    · intro _; exact ⟨rfl, rfl⟩
    · intro heq; omega

/-- C4 (witness): a full queue of two chunks with `maxQueueSize = 2`
drops the oldest chunk and stays at two chunks. -/
theorem sendAudio_queue_bounded_witness :
    ([0, 1] : List ℕ).length ≤ 2 ∧
    (sendAudioNotOpenQueue ([0, 1] : List ℕ) 2 5).queue.length ≤ 2 ∧
    (sendAudioNotOpenQueue ([0, 1] : List ℕ) 2 5).queue = ([0, 1, 5] : List ℕ).drop 1 ∧
    (sendAudioNotOpenQueue ([0, 1] : List ℕ) 2 5).warned = true := by
  have h := sendAudio_queue_bounded ([0, 1] : List ℕ) 2 5 (by decide)
  exact ⟨by decide, h.1, (h.2.2.2 rfl).1, (h.2.2.2 rfl).2⟩

/-- C6: setting the bound model to its current value causes no
additional config frame to be sent, both for `useTranscribe` (whose
model-change effect does not re-run when its `currentModel` dependency
is unchanged) and for `useTranscriptionSocket` (whose effect body
additionally compares against `currentModelRef`). -/
theorem config_model_idempotent :
    (∀ st : TranscribeClient, transcribeSetModel st st.model = (st, [])) ∧
    (∀ st : SocketClient, socketSetModel st st.model = (st, [])) := by
  constructor
  · intro st
    unfold transcribeSetModel
    rw [if_pos rfl]
  · intro st
    unfold socketSetModel
    rw [if_pos rfl]

/-- C7: messages of type `error`, messages of unknown type, and
malformed JSON frames leave the whole transcription store state
(partial text, finalized texts, latency) unchanged and never close the
connection; they are only logged. -/
theorem error_frames_leave_state (st : StoreState) (freshId : String) (now : ℚ)
    (code message ty : String) :
    ((handleSocketMessage st (.errorMsg code message) freshId now).1 = st ∧
      HandlerEffect.closeConnection ∉
        (handleSocketMessage st (.errorMsg code message) freshId now).2) ∧
    ((handleSocketMessage st (.unknownType ty) freshId now).1 = st ∧
      HandlerEffect.closeConnection ∉
        (handleSocketMessage st (.unknownType ty) freshId now).2) ∧
    ((handleSocketMessage st .malformed freshId now).1 = st ∧
      HandlerEffect.closeConnection ∉
        (handleSocketMessage st .malformed freshId now).2) := by
  refine ⟨⟨rfl, ?_⟩, ⟨rfl, ?_⟩, ⟨rfl, ?_⟩⟩
  · simp [handleSocketMessage]
  · by_cases h : ty = "pong" <;> simp [handleSocketMessage, h]
  · simp [handleSocketMessage]

end Voice2Text

namespace Voice2Text

theorem pcmProcessGo_frames (data : List Dy) : ∀ (buf : List Dy) (acc : List (List ℤ)),
    buf.length < pcmBufferSize →
    (∀ f ∈ acc, f.length = pcmBufferSize) →
    (pcmProcessGo data buf acc).1.length < pcmBufferSize ∧
    ∀ f ∈ (pcmProcessGo data buf acc).2, f.length = pcmBufferSize := by
  induction data with
  | nil => intro buf acc h hacc; exact ⟨h, hacc⟩
  | cons x rest ih =>
      intro buf acc h hacc
      simp only [pcmProcessGo]
      by_cases hfull : pcmBufferSize ≤ (buf ++ [x]).length
      · rw [if_pos hfull]
        apply ih
        · simp [pcmBufferSize]
        · intro f hf
          rcases List.mem_append.mp hf with hf | hf
          · exact hacc f hf
          · simp only [List.mem_singleton] at hf
            subst hf
            simp only [List.length_map, List.length_append, List.length_singleton] at hfull ⊢
            omega
      · rw [if_neg hfull]
        apply ih
        · simp only [List.length_append, List.length_singleton] at hfull ⊢
          omega
        · exact hacc

/-- C5: every binary audio frame has an even number of bytes: frames
posted by the PCM worklet's `process` hold exactly 4096 whole 16-bit
samples (8192 bytes), any `flush` posts exactly `bytesWritten` whole
samples (`2 * bytesWritten` bytes), and `sendAudio` forwards the
`Int16Array`'s bytes unchanged, so every frame's byte length is even. -/
theorem binary_frames_even (st : PCMProcessorState) (channelData : List Dy)
    (h : st.buffer.length < pcmBufferSize) :
    (pcmProcess st channelData).1.buffer.length < pcmBufferSize ∧
    (∀ f ∈ (pcmProcess st channelData).2,
      f.length = 4096 ∧ (int16ArrayBytes f).length = 8192) ∧
    (∀ buf : List Dy, (int16ArrayBytes (pcmFlush ⟨buf⟩).1).length = 2 * buf.length) ∧
    (∀ audioData : List ℤ, (sendAudioSocketFrame audioData).length = 2 * audioData.length ∧
      Even (sendAudioSocketFrame audioData).length) := by
  have hgo := pcmProcessGo_frames channelData st.buffer [] h (by simp)
  refine ⟨?_, ?_, ?_, ?_⟩
  · simpa [pcmProcess] using hgo.1
  · intro f hf
    have hlen := hgo.2 f (by simpa [pcmProcess] using hf)
    rw [pcmBufferSize] at hlen
    refine ⟨hlen, ?_⟩
    rw [int16ArrayBytes_length, hlen]
  · intro buf
    simp [pcmFlush, int16ArrayBytes_length]
  · intro audioData
    refine ⟨int16ArrayBytes_length _, ?_⟩
    rw [sendAudioSocketFrame, int16ArrayBytes_length]
    exact ⟨audioData.length, two_mul _⟩

/-- C5 (witness): the worklet state with an empty buffer satisfies the
precondition, and the byte-forwarding conclusion holds concretely. -/
theorem binary_frames_even_witness :
    (⟨[]⟩ : PCMProcessorState).buffer.length < pcmBufferSize ∧
    (∀ audioData : List ℤ, (sendAudioSocketFrame audioData).length = 2 * audioData.length ∧
      Even (sendAudioSocketFrame audioData).length) := by
  have h := binary_frames_even ⟨[]⟩ [dyInt 0] (by decide)
  exact ⟨by decide, h.2.2.2⟩

/-- C8 (code bug): `calculateRmsVolume` documents a result in `[0, 1]`
and the spec says the RMS is computed over samples normalized into
`[-1, 1]`, but the code divides Int16 samples by `0x7FFF = 32767`
while the most negative sample is `-32768`, so the input `[-32768]`
yields RMS `32768/32767 > 1`. -/
theorem rms_volume_exceeds_one :
    rmsMeanSqInt16 [-32768] = (32768 / 32767) ^ 2 ∧
    1 < Real.sqrt ((rmsMeanSqInt16 [-32768] : ℚ) : ℝ) := by
  have h1 : rmsMeanSqInt16 [-32768] = (32768 / 32767) ^ 2 := by
    simp [rmsMeanSqInt16]
    ring
  refine ⟨h1, ?_⟩
  rw [h1]
  have h2 : ((((32768 : ℚ) / 32767) ^ 2 : ℚ) : ℝ) = ((32768 / 32767 : ℝ)) ^ 2 := by
    push_cast
    ring
  rw [h2]
  calc (1 : ℝ) = Real.sqrt 1 := Real.sqrt_one.symm
    _ < Real.sqrt ((32768 / 32767 : ℝ) ^ 2) := by
        apply Real.sqrt_lt_sqrt (by norm_num)
        norm_num

/-- C10: `downsample` returns the input unchanged whenever the source
rate is at most the target rate, and otherwise returns
`floor(length * target / source)` samples, the `i`-th being the linear
interpolation between the two source samples bracketing position
`i * source / target`, with the upper index clamped to the last
sample. -/
theorem downsample_matches_spec (samples : List ℚ) (src tgt : ℚ) :
    (src ≤ tgt → downsample samples src tgt = samples) ∧
    (tgt < src →
      (downsample samples src tgt).length = (⌊(samples.length : ℚ) * tgt / src⌋).toNat ∧
      ∀ i : ℕ, i < (downsample samples src tgt).length →
        (downsample samples src tgt).getD i 0 =
          samples.getD (⌊(i : ℚ) * src / tgt⌋).toNat 0
              * (1 - ((i : ℚ) * src / tgt - ⌊(i : ℚ) * src / tgt⌋))
            + samples.getD (min ((⌊(i : ℚ) * src / tgt⌋).toNat + 1) (samples.length - 1)) 0
              * ((i : ℚ) * src / tgt - ⌊(i : ℚ) * src / tgt⌋)) := by
  constructor
  · intro h
    unfold downsample
    rcases eq_or_lt_of_le h with heq | hlt
    · rw [if_pos heq]
    · rw [if_neg (ne_of_lt hlt), if_pos hlt]
  · intro h
    have hne : src ≠ tgt := ne_of_gt h
    have hnlt : ¬ src < tgt := not_lt_of_gt h
    have hdd : (samples.length : ℚ) / (src / tgt) = (samples.length : ℚ) * tgt / src :=
      div_div_eq_mul_div _ _ _
    constructor
    · simp only [downsample, if_neg hne, if_neg hnlt, List.length_map, List.length_range]
      rw [hdd]
    · intro i hi
      simp only [downsample, if_neg hne, if_neg hnlt, List.length_map,
        List.length_range] at hi ⊢
      rw [List.getD_eq_getElem?_getD, List.getElem?_map, List.getElem?_range hi]
      simp only [Option.map_some', Option.getD_some]
      rw [mul_div_assoc]

end Voice2Text

namespace Voice2Text

/-- C1 (counterexample): a single pushed frame can overshoot
`maxDurationMs` before the forced-flush check runs, so the flushed
segment's duration exceeds `maxDurationMs`: with `maxDurationMs = 1` ms
and a 2 ms frame, the forced final flush has duration 2 ms. -/
theorem buffering_flush_exceeds_max :
    (push c1Policy [] c1Frame).1 = .flush c1Frame true ∧
    c1Policy.maxDurationMs < durationMs c1Frame := by
  have hdur : durationMs c1Frame = 2 := by
    simp [durationMs, c1Frame]
    norm_num
  have hc1 : ¬(0 < c1Policy.decodeIntervalMs ∧
      c1Policy.decodeIntervalMs ≤ durationMs c1Frame) := by
    rintro ⟨hlt, -⟩
    norm_num [c1Policy] at hlt
  have hc2 : ¬(c1Policy.minDurationMs ≤ durationMs c1Frame ∧
      silenceDetected c1Policy c1Frame) := by
    rintro ⟨hle, -⟩
    rw [hdur] at hle
    norm_num [c1Policy] at hle
  have hc3 : c1Policy.maxDurationMs ≤ durationMs c1Frame := by
    rw [hdur]
    norm_num [c1Policy]
  constructor
  · simp only [push, List.nil_append]
    rw [if_neg hc1, if_neg hc2, if_pos hc3]
  · rw [hdur]
    norm_num [c1Policy]

/-- C1 (amended, spec-modelled): for every policy with positive
`maxDurationMs` and every at-rest buffer (duration below
`maxDurationMs`), a push leaves the retained buffer below
`maxDurationMs`; every flushed segment has duration in
`[0, maxDurationMs + frame duration)` (the claimed `[0, maxDurationMs]`
bound fails only by the overshoot of the final frame); every final
flush reached at least `minDurationMs` (silence trigger) or
`maxDurationMs` (forced trigger); and no flush happens exactly when no
trigger fired, so the forced flush fires exactly when the buffer
reaches `maxDurationMs` with no earlier trigger. -/
theorem buffering_flush_bounds (p : BufferPolicy) (buffer frame : List ℚ)
    (hmax : 0 < p.maxDurationMs) (hrest : durationMs buffer < p.maxDurationMs) :
    durationMs (push p buffer frame).2 < p.maxDurationMs ∧
    (∀ s fin, (push p buffer frame).1 = .flush s fin →
      0 ≤ durationMs s ∧ durationMs s < p.maxDurationMs + durationMs frame) ∧
    (∀ s, (push p buffer frame).1 = .flush s true →
      p.minDurationMs ≤ durationMs s ∨ p.maxDurationMs ≤ durationMs s) ∧
    ((push p buffer frame).1 = .noFlush ↔
      ¬(0 < p.decodeIntervalMs ∧ p.decodeIntervalMs ≤ durationMs (buffer ++ frame)) ∧
      ¬(p.minDurationMs ≤ durationMs (buffer ++ frame) ∧
          silenceDetected p (buffer ++ frame)) ∧
      ¬(p.maxDurationMs ≤ durationMs (buffer ++ frame))) := by
  have hlt : durationMs (buffer ++ frame) < p.maxDurationMs + durationMs frame := by
    rw [durationMs_append]
    exact add_lt_add_right hrest _
  have hnn : 0 ≤ durationMs (buffer ++ frame) := durationMs_nonneg _
  have hnil : durationMs ([] : List ℚ) = 0 := by simp [durationMs]
  simp only [push]
  split_ifs with h1 h2 h3
  · refine ⟨by rw [hnil]; exact hmax, ?_, ?_, ?_⟩
    · rintro s fin hs
      obtain ⟨rfl, -⟩ : buffer ++ frame = s ∧ false = fin := by simpa using hs
      exact ⟨hnn, hlt⟩
    · rintro s hs
      simp at hs
    · constructor
      · intro hno; simp at hno
      · rintro ⟨hn1, -, -⟩; exact absurd h1 hn1
  · refine ⟨by rw [hnil]; exact hmax, ?_, ?_, ?_⟩
    · rintro s fin hs
      obtain ⟨rfl, -⟩ : buffer ++ frame = s ∧ true = fin := by simpa using hs
      exact ⟨hnn, hlt⟩
    · rintro s hs
      obtain ⟨rfl, -⟩ : buffer ++ frame = s ∧ True := by simpa using hs
      exact Or.inl h2.1
    · constructor
      · intro hno; simp at hno
      · rintro ⟨-, hn2, -⟩; exact absurd h2 hn2
  · refine ⟨by rw [hnil]; exact hmax, ?_, ?_, ?_⟩
    · rintro s fin hs
      obtain ⟨rfl, -⟩ : buffer ++ frame = s ∧ true = fin := by simpa using hs
      exact ⟨hnn, hlt⟩
    · rintro s hs
      obtain ⟨rfl, -⟩ : buffer ++ frame = s ∧ True := by simpa using hs
      exact Or.inr h3
    · constructor
      · intro hno; simp at hno
      · rintro ⟨-, -, hn3⟩; exact absurd h3 hn3
  · refine ⟨not_le.mp h3, ?_, ?_, ?_⟩
    · rintro s fin hs
      simp at hs
    · rintro s hs
      simp at hs
    · exact ⟨fun _ => ⟨h1, h2, h3⟩, fun _ => rfl⟩

/-- C1 (witness): the amended bounds at the counterexample policy, an
empty at-rest buffer and the 2 ms frame. -/
theorem buffering_flush_bounds_witness :
    (0 : ℚ) < c1Policy.maxDurationMs ∧ durationMs ([] : List ℚ) < c1Policy.maxDurationMs ∧
    (durationMs (push c1Policy [] c1Frame).2 < c1Policy.maxDurationMs ∧
      (∀ s fin, (push c1Policy [] c1Frame).1 = .flush s fin →
        0 ≤ durationMs s ∧ durationMs s < c1Policy.maxDurationMs + durationMs c1Frame) ∧
      (∀ s, (push c1Policy [] c1Frame).1 = .flush s true →
        c1Policy.minDurationMs ≤ durationMs s ∨ c1Policy.maxDurationMs ≤ durationMs s) ∧
      ((push c1Policy [] c1Frame).1 = .noFlush ↔
        ¬(0 < c1Policy.decodeIntervalMs ∧
            c1Policy.decodeIntervalMs ≤ durationMs ([] ++ c1Frame)) ∧
        ¬(c1Policy.minDurationMs ≤ durationMs ([] ++ c1Frame) ∧
            silenceDetected c1Policy ([] ++ c1Frame)) ∧
        ¬(c1Policy.maxDurationMs ≤ durationMs ([] ++ c1Frame)))) := by
  refine ⟨by norm_num [c1Policy], by norm_num [durationMs, c1Policy], ?_⟩
  exact buffering_flush_bounds c1Policy [] c1Frame (by norm_num [c1Policy])
    (by norm_num [durationMs, c1Policy])

end Voice2Text

namespace Voice2Text

/-- C10 (witness): upsampling returns the input unchanged, and a 2:1
downsampling produces the floor-length output. -/
theorem downsample_matches_spec_witness :
    (2 : ℚ) ≤ 4 ∧ downsample [1, 2, 3, 4] 2 4 = [1, 2, 3, 4] ∧
    (2 : ℚ) < 4 ∧
    (downsample [1, 2, 3, 4] 4 2).length
      = (⌊(([1, 2, 3, 4] : List ℚ).length : ℚ) * 2 / 4⌋).toNat := by
  have h1 := (downsample_matches_spec [1, 2, 3, 4] 2 4).1 (by norm_num)
  have h2 := (downsample_matches_spec [1, 2, 3, 4] 4 2).2 (by norm_num)
  exact ⟨by norm_num, h1, by norm_num, h2.1⟩

/-! ## Correctness of the bit-length and exponent helpers -/

theorem natBitsAux_zero (fuel : ℕ) : natBitsAux fuel 0 = 0 := by
  cases fuel <;> simp [natBitsAux]

theorem natBitsAux_congr : ∀ (f1 : ℕ) (f2 n : ℕ), n ≤ f1 → n ≤ f2 →
    natBitsAux f1 n = natBitsAux f2 n := by
  intro f1
  induction f1 with
  | zero =>
      intro f2 n h1 _
      interval_cases n
      rw [natBitsAux_zero, natBitsAux_zero]
  | succ f ih =>
      intro f2 n h1 h2
      cases f2 with
      | zero =>
          interval_cases n
          rw [natBitsAux_zero, natBitsAux_zero]
      | succ f2' =>
          by_cases hn : n = 0
          · subst hn
            rw [natBitsAux_zero, natBitsAux_zero]
          · have hlt : n / 2 < n := Nat.div_lt_self (Nat.pos_of_ne_zero hn) (by norm_num)
            simp only [natBitsAux, if_neg hn]
            rw [ih f2' (n / 2) (by omega) (by omega)]

theorem natBits_succ (n : ℕ) (h : n ≠ 0) : natBits n = natBits (n / 2) + 1 := by
  unfold natBits
  cases n with
  | zero => exact absurd rfl h
  | succ m =>
      simp only [natBitsAux, if_neg h]
      have hle : (m + 1) / 2 ≤ m := by omega
      rw [natBitsAux_congr m ((m + 1) / 2) ((m + 1) / 2) hle le_rfl]

theorem natBits_pos (n : ℕ) (h : n ≠ 0) : 0 < natBits n := by
  rw [natBits_succ n h]
  omega

theorem natBits_spec (n : ℕ) (h : n ≠ 0) : 2 ^ (natBits n - 1) ≤ n ∧ n < 2 ^ natBits n := by
  induction n using Nat.strong_induction_on with
  | _ n ih =>
      by_cases h1 : n = 1
      · subst h1
        constructor <;> decide
      · have h2 : 2 ≤ n := by omega
        have hhalf : n / 2 ≠ 0 := by omega
        have hlt : n / 2 < n := Nat.div_lt_self (by omega) (by norm_num)
        obtain ⟨ihl, ihu⟩ := ih (n / 2) hlt hhalf
        have hb : 0 < natBits (n / 2) := natBits_pos _ hhalf
        rw [natBits_succ n h]
        set b := natBits (n / 2) with hbdef
        simp only [Nat.add_sub_cancel]
        have hp1 : 2 ^ b = 2 ^ (b - 1) * 2 := by
          rw [← pow_succ]
          congr 1
          omega
        have hp2 : 2 ^ (b + 1) = 2 ^ b * 2 := by rw [pow_succ]
        constructor
        · omega
        · omega

end Voice2Text

namespace Voice2Text

theorem pow2Le_iff (c : ℤ) (a d : ℕ) (hd : d ≠ 0) :
    pow2Le c a d = true ↔ (2 : ℚ) ^ c ≤ (a : ℚ) / (d : ℚ) := by
  have hd' : (0 : ℚ) < (d : ℚ) := by
    exact_mod_cast Nat.pos_of_ne_zero hd
  unfold pow2Le
  by_cases hc : 0 ≤ c
  · rw [if_pos hc, decide_eq_true_eq, le_div_iff₀ hd']
    have hz : (2 : ℚ) ^ c = ((2 ^ c.toNat : ℕ) : ℚ) := by
      have h0 : (2 : ℚ) ^ c = (2 : ℚ) ^ ((c.toNat : ℕ) : ℤ) := by
        rw [Int.toNat_of_nonneg hc]
      rw [h0, zpow_natCast]
      push_cast
      ring
    rw [hz, ← Nat.cast_mul, Nat.cast_le, Nat.mul_comm d (2 ^ c.toNat)]
  · rw [if_neg hc, decide_eq_true_eq, le_div_iff₀ hd']
    push_neg at hc
    have hz : (2 : ℚ) ^ c = (((2 ^ (-c).toNat : ℕ) : ℚ))⁻¹ := by
      have h0 : (2 : ℚ) ^ c = (2 : ℚ) ^ (-(((-c).toNat : ℕ) : ℤ)) := by
        rw [Int.toNat_of_nonneg (by omega : (0:ℤ) ≤ -c)]
        ring_nf
      rw [h0, zpow_neg, zpow_natCast]
      norm_cast
    have hp : (0 : ℚ) < ((2 ^ (-c).toNat : ℕ) : ℚ) := by positivity
    rw [hz, inv_mul_le_iff₀ hp, ← Nat.cast_mul, Nat.cast_le, Nat.mul_comm a (2 ^ (-c).toNat)]

theorem ratExpND_correct (a d : ℕ) (ha : a ≠ 0) (hd : d ≠ 0) :
    (2 : ℚ) ^ (ratExpND a d) ≤ (a : ℚ) / (d : ℚ) ∧
    (a : ℚ) / (d : ℚ) < (2 : ℚ) ^ (ratExpND a d + 1) := by
  obtain ⟨hla, hua⟩ := natBits_spec a ha
  obtain ⟨hld, hud⟩ := natBits_spec d hd
  have hd' : (0 : ℚ) < (d : ℚ) := by exact_mod_cast Nat.pos_of_ne_zero hd
  set bn := natBits a
  set bd := natBits d
  set c : ℤ := (bn : ℤ) - (bd : ℤ) with hcdef
  have hupper : (a : ℚ) / (d : ℚ) < (2 : ℚ) ^ (c + 1) := by
    have hnat : a * 2 ^ (bd - 1) < 2 ^ bn * d := by
      calc a * 2 ^ (bd - 1) < 2 ^ bn * 2 ^ (bd - 1) :=
            mul_lt_mul_of_pos_right hua (by positivity)
        _ ≤ 2 ^ bn * d := mul_le_mul_left' hld _
    have hq : (a : ℚ) * 2 ^ ((bd : ℤ) - 1) < 2 ^ (bn : ℤ) * d := by
      have h1 : ((2 : ℚ)) ^ ((bd : ℤ) - 1) = ((2 ^ (bd - 1) : ℕ) : ℚ) := by
        rw [show (bd : ℤ) - 1 = ((bd - 1 : ℕ) : ℤ) by
          have := natBits_pos d hd
          omega, zpow_natCast]
        push_cast
        ring
      have h2 : ((2 : ℚ)) ^ ((bn : ℤ)) = ((2 ^ bn : ℕ) : ℚ) := by
        rw [zpow_natCast]
        push_cast
        ring
      rw [h1, h2]
      exact_mod_cast hnat
    rw [div_lt_iff₀ hd']
    calc (a : ℚ) = (a : ℚ) * 2 ^ ((bd : ℤ) - 1) * 2 ^ (1 - (bd : ℤ)) := by
          rw [mul_assoc, ← zpow_add₀ (by norm_num : (2:ℚ) ≠ 0)]
          simp
      _ < 2 ^ (bn : ℤ) * d * 2 ^ (1 - (bd : ℤ)) := by
          apply mul_lt_mul_of_pos_right hq
          positivity
      _ = 2 ^ (c + 1) * d := by
          rw [hcdef]
          rw [show (2 : ℚ) ^ ((bn : ℤ) - (bd : ℤ) + 1) = 2 ^ (bn : ℤ) * 2 ^ (1 - (bd : ℤ)) by
            rw [← zpow_add₀ (by norm_num : (2:ℚ) ≠ 0)]
            ring_nf]
          ring
  have hlower : (2 : ℚ) ^ (c - 1) < (a : ℚ) / (d : ℚ) := by
    have hnat : 2 ^ (bn - 1) * d < a * 2 ^ bd := by
      calc 2 ^ (bn - 1) * d < 2 ^ (bn - 1) * 2 ^ bd :=
            mul_lt_mul_of_pos_left hud (by positivity)
        _ ≤ a * 2 ^ bd := mul_le_mul_right' hla _
    have hq : (2 : ℚ) ^ ((bn : ℤ) - 1) * d < (a : ℚ) * 2 ^ ((bd : ℤ)) := by
      have h1 : ((2 : ℚ)) ^ ((bn : ℤ) - 1) = ((2 ^ (bn - 1) : ℕ) : ℚ) := by
        rw [show (bn : ℤ) - 1 = ((bn - 1 : ℕ) : ℤ) by
          have := natBits_pos a ha
          omega, zpow_natCast]
        push_cast
        ring
      have h2 : ((2 : ℚ)) ^ ((bd : ℤ)) = ((2 ^ bd : ℕ) : ℚ) := by
        rw [zpow_natCast]
        push_cast
        ring
      rw [h1, h2]
      exact_mod_cast hnat
    rw [lt_div_iff₀ hd']
    have h2pos : (0 : ℚ) < 2 ^ ((bd : ℤ)) := by positivity
    calc (2 : ℚ) ^ (c - 1) * d
        = (2 : ℚ) ^ ((bn : ℤ) - 1) * d * (2 ^ ((bd : ℤ)))⁻¹ := by
          rw [hcdef]
          rw [show (2 : ℚ) ^ ((bn : ℤ) - (bd : ℤ) - 1)
              = 2 ^ ((bn : ℤ) - 1) * (2 ^ ((bd : ℤ)))⁻¹ by
            rw [← zpow_neg, ← zpow_add₀ (by norm_num : (2:ℚ) ≠ 0)]
            ring_nf]
          ring
      _ < (a : ℚ) * 2 ^ ((bd : ℤ)) * (2 ^ ((bd : ℤ)))⁻¹ := by
          apply mul_lt_mul_of_pos_right hq
          positivity
      _ = (a : ℚ) := by
          rw [mul_assoc, mul_inv_cancel₀ (ne_of_gt h2pos), mul_one]
  unfold ratExpND
  by_cases hp : pow2Le ((natBits a : ℤ) - (natBits d : ℤ)) a d
  · rw [if_pos hp]
    exact ⟨(pow2Le_iff _ _ _ hd).mp hp, hupper⟩
  · rw [if_neg hp]
    constructor
    · exact le_of_lt hlower
    · have := (pow2Le_iff ((natBits a : ℤ) - (natBits d : ℤ)) a d hd).not.mp
        (by simpa using hp)
      push_neg at this
      simpa using this

theorem ratExpND_le_of_lt (a d : ℕ) (ha : a ≠ 0) (hd : d ≠ 0) (t : ℕ)
    (h : a < d * 2 ^ (t + 1)) : ratExpND a d ≤ (t : ℤ) := by
  have hd' : (0 : ℚ) < (d : ℚ) := by exact_mod_cast Nat.pos_of_ne_zero hd
  have hval : (a : ℚ) / (d : ℚ) < (2 : ℚ) ^ ((t : ℤ) + 1) := by
    rw [div_lt_iff₀ hd']
    have hz : (2 : ℚ) ^ ((t : ℤ) + 1) = ((2 ^ (t + 1) : ℕ) : ℚ) := by
      rw [show (t : ℤ) + 1 = ((t + 1 : ℕ) : ℤ) by omega, zpow_natCast]
      push_cast
      ring
    rw [hz, ← Nat.cast_mul, Nat.cast_lt, Nat.mul_comm]
    exact h
  have hle := (ratExpND_correct a d ha hd).1
  have hzp : (2 : ℚ) ^ (ratExpND a d) < (2 : ℚ) ^ ((t : ℤ) + 1) := lt_of_le_of_lt hle hval
  have := (zpow_lt_zpow_iff_right₀ (by norm_num : (1 : ℚ) < 2)).mp hzp
  omega

end Voice2Text

namespace Voice2Text

theorem natRHE_exact (a b : ℕ) (hb : b ≠ 0) (hdvd : b ∣ a) : natRHE a b = a / b := by
  unfold natRHE
  have hr : a % b = 0 := by
    obtain ⟨k, rfl⟩ := hdvd
    exact Nat.mul_mod_right b k
  rw [hr]
  have : 2 * 0 < b := by omega
  rw [if_pos this]

/-- Exact-rounding lemma: when the scaled numerator is divisible by the
denominator, `rndQ` returns the input value unchanged, with mantissa
`num * 2^scale / den` and exponent `-scale`. -/
theorem rndQ_exact (p : ℕ) (num : ℤ) (den : ℕ) (hnum : num ≠ 0) (hden : den ≠ 0)
    (hsc : 0 ≤ (p : ℤ) - 1 - ratExpND num.natAbs den)
    (hdvd : den ∣ num.natAbs * 2 ^ ((p : ℤ) - 1 - ratExpND num.natAbs den).toNat) :
    (rndQ p num den).e = -((p : ℤ) - 1 - ratExpND num.natAbs den) ∧
    (rndQ p num den).m * (den : ℤ)
      = num * 2 ^ ((p : ℤ) - 1 - ratExpND num.natAbs den).toNat := by
  set e := ratExpND num.natAbs den with hedef
  set sc : ℤ := (p : ℤ) - 1 - e with hscdef
  have hor : ¬(num = 0 ∨ den = 0) := by
    push_neg
    exact ⟨hnum, hden⟩
  unfold rndQ
  rw [if_neg hor]
  simp only [← hedef, ← hscdef, if_pos hsc]
  have hm : natRHE (num.natAbs * 2 ^ sc.toNat) den = num.natAbs * 2 ^ sc.toNat / den :=
    natRHE_exact _ _ hden hdvd
  constructor
  · trivial
  · show (if num < 0 then -(↑(natRHE (num.natAbs * 2 ^ sc.toNat) den) : ℤ)
        else (↑(natRHE (num.natAbs * 2 ^ sc.toNat) den) : ℤ)) * (den : ℤ)
      = num * 2 ^ sc.toNat
    rw [hm]
    have hnatmul : (num.natAbs * 2 ^ sc.toNat / den) * den = num.natAbs * 2 ^ sc.toNat :=
      Nat.div_mul_cancel hdvd
    by_cases hneg : num < 0
    · rw [if_pos hneg]
      have habs : (num.natAbs : ℤ) = -num := Int.ofNat_natAbs_of_nonpos (le_of_lt hneg)
      have : ((num.natAbs * 2 ^ sc.toNat / den : ℕ) : ℤ) * (den : ℤ)
          = ((num.natAbs : ℕ) : ℤ) * 2 ^ sc.toNat := by
        exact_mod_cast congrArg (fun n : ℕ => (n : ℤ)) hnatmul
      rw [neg_mul, this, habs]
      ring
    · rw [if_neg hneg]
      have habs : (num.natAbs : ℤ) = num := Int.natAbs_of_nonneg (le_of_not_lt hneg)
      have : ((num.natAbs * 2 ^ sc.toNat / den : ℕ) : ℤ) * (den : ℤ)
          = ((num.natAbs : ℕ) : ℤ) * 2 ^ sc.toNat := by
        exact_mod_cast congrArg (fun n : ℕ => (n : ℤ)) hnatmul
      rw [this, habs]

end Voice2Text

namespace Voice2Text

theorem dyNum_neg_e (d : Dy) (h : d.e < 0) : dyNum d = d.m := by
  rw [dyNum, if_neg (by omega)]

theorem dyDen_neg_e (d : Dy) (h : d.e < 0) : dyDen d = 2 ^ (-d.e).toNat := by
  rw [dyDen, if_neg (by omega)]

theorem dyNum_dyInt (n : ℤ) : dyNum (dyInt n) = n := by
  simp [dyNum, dyInt]

theorem dyDen_dyInt (n : ℤ) : dyDen (dyInt n) = 1 := by
  simp [dyDen, dyInt]

/-- One int16 sample in `[-32768, 0]` survives the float32 round trip
exactly: the negative branch divides by the power of two `0x8000`, so
every rounding step in the chain is exact. -/
theorem sample_roundtrip_nonpos (s : ℤ) (hlo : -32768 ≤ s) (hhi : s ≤ 0) :
    float32ToInt16Sample (int16ToFloat32Sample s) = s := by
  rcases eq_or_lt_of_le hhi with rfl | hneg
  · decide
  · have hne : s ≠ 0 := ne_of_lt hneg
    have habs : (s.natAbs : ℤ) = -s := Int.ofNat_natAbs_of_nonpos (le_of_lt hneg)
    have habs_le : s.natAbs ≤ 32768 := by omega
    have habs_ne : s.natAbs ≠ 0 := by omega
    -- step 1: the binary64 division s / 0x8000 is exact
    have he1le : ratExpND s.natAbs 32768 ≤ 0 := by
      have h0 := ratExpND_le_of_lt s.natAbs 32768 habs_ne (by norm_num) 0 (by omega)
      simpa using h0
    have hsc1 : 0 ≤ ((53 : ℕ) : ℤ) - 1 - ratExpND s.natAbs 32768 := by
      push_cast
      omega
    have hk1ge : 15 ≤ (((53 : ℕ) : ℤ) - 1 - ratExpND s.natAbs 32768).toNat := by
      push_cast at hsc1 ⊢
      omega
    have hdvd1 : 32768 ∣ s.natAbs * 2 ^ (((53 : ℕ) : ℤ) - 1 - ratExpND s.natAbs 32768).toNat := by
      rw [show (32768 : ℕ) = 2 ^ 15 by norm_num]
      exact Dvd.dvd.mul_left (pow_dvd_pow 2 hk1ge) _
    obtain ⟨hd1e, hd1m⟩ := rndQ_exact 53 s 32768 hne (by norm_num) hsc1 hdvd1
    set E1 : ℤ := ratExpND s.natAbs 32768 with hE1def
    set K1 : ℕ := (((53 : ℕ) : ℤ) - 1 - E1).toNat with hK1def
    set d1 : Dy := rndQ 53 s 32768 with hd1def
    -- step 2: the rounding to binary32 is exact
    have hd1e_neg : d1.e < 0 := by
      rw [hd1e]
      push_cast at hsc1 ⊢
      omega
    have hnum1 : dyNum d1 = d1.m := dyNum_neg_e _ hd1e_neg
    have hden1 : dyDen d1 = 2 ^ K1 := by
      rw [dyDen_neg_e _ hd1e_neg, hd1e]
      simp [hK1def]
    have hm1 : d1.m * 32768 = s * 2 ^ K1 := hd1m
    have hm1ne : d1.m ≠ 0 := by
      intro h0
      rw [h0, zero_mul] at hm1
      have : s * 2 ^ K1 ≠ 0 := mul_ne_zero hne (by positivity)
      exact this hm1.symm
    have hm1abs : d1.m.natAbs * 32768 = s.natAbs * 2 ^ K1 := by
      have h0 := congrArg Int.natAbs hm1
      simpa [Int.natAbs_mul, Int.natAbs_pow] using h0
    have hm1abs_le : d1.m.natAbs ≤ 2 ^ K1 := by
      have h0 : d1.m.natAbs * 32768 ≤ 2 ^ K1 * 32768 := by
        rw [hm1abs, Nat.mul_comm (2 ^ K1) 32768]
        exact mul_le_mul_right' habs_le _
      exact Nat.le_of_mul_le_mul_right h0 (by norm_num)
    have hp2K1 : (2 : ℕ) ^ K1 ≠ 0 := by positivity
    have he2le : ratExpND d1.m.natAbs (2 ^ K1) ≤ 0 := by
      have h0 := ratExpND_le_of_lt d1.m.natAbs (2 ^ K1) (by
          simpa [Int.natAbs_eq_zero] using hm1ne) hp2K1 0 (by
          have : (2:ℕ) ^ K1 * 2 ^ 1 = 2 ^ K1 * 2 := by norm_num
          omega)
      simpa using h0
    have hsc2 : 0 ≤ ((24 : ℕ) : ℤ) - 1 - ratExpND d1.m.natAbs (2 ^ K1) := by
      push_cast
      omega
    have hk2ge : 15 ≤ (((24 : ℕ) : ℤ) - 1 - ratExpND d1.m.natAbs (2 ^ K1)).toNat := by
      push_cast at hsc2 ⊢
      omega
    have hdvd2 : 2 ^ K1 ∣
        d1.m.natAbs * 2 ^ (((24 : ℕ) : ℤ) - 1 - ratExpND d1.m.natAbs (2 ^ K1)).toNat := by
      set K2 : ℕ := (((24 : ℕ) : ℤ) - 1 - ratExpND d1.m.natAbs (2 ^ K1)).toNat
      refine ⟨s.natAbs * 2 ^ (K2 - 15), ?_⟩
      have hsplit : (2 : ℕ) ^ K2 = 2 ^ 15 * 2 ^ (K2 - 15) := by
        rw [← pow_add]
        congr 1
        omega
      calc d1.m.natAbs * 2 ^ K2 = d1.m.natAbs * (2 ^ 15 * 2 ^ (K2 - 15)) := by rw [hsplit]
        _ = (d1.m.natAbs * 32768) * 2 ^ (K2 - 15) := by norm_num; ring
        _ = (s.natAbs * 2 ^ K1) * 2 ^ (K2 - 15) := by rw [hm1abs]
        _ = 2 ^ K1 * (s.natAbs * 2 ^ (K2 - 15)) := by ring
    obtain ⟨hd2e, hd2m⟩ := rndQ_exact 24 d1.m (2 ^ K1) hm1ne hp2K1 hsc2 hdvd2
    set E2 : ℤ := ratExpND d1.m.natAbs (2 ^ K1) with hE2def
    set K2 : ℕ := (((24 : ℕ) : ℤ) - 1 - E2).toNat with hK2def
    set d2 : Dy := rndQ 24 d1.m (2 ^ K1) with hd2def
    have hi2f : int16ToFloat32Sample s = d2 := by
      rw [int16ToFloat32Sample, if_pos hneg, rndDy, ← hd1def, hnum1, hden1, hd2def]
    -- the value of d2 is s / 0x8000
    have hd2m' : d2.m * 2 ^ K1 = d1.m * 2 ^ K2 := by exact_mod_cast hd2m
    have hm2 : d2.m * 32768 = s * 2 ^ K2 := by
      have hc : (2 : ℤ) ^ K1 ≠ 0 := by positivity
      apply mul_right_cancel₀ hc
      calc d2.m * 32768 * 2 ^ K1 = (d2.m * 2 ^ K1) * 32768 := by ring
        _ = (d1.m * 2 ^ K2) * 32768 := by rw [hd2m']
        _ = (d1.m * 32768) * 2 ^ K2 := by ring
        _ = (s * 2 ^ K1) * 2 ^ K2 := by rw [hm1]
        _ = s * 2 ^ K2 * 2 ^ K1 := by ring
    have hm2neg : d2.m < 0 := by
      have h0 : s * 2 ^ K2 < 0 := mul_neg_of_neg_of_pos hneg (by positivity)
      rw [← hm2] at h0
      omega
    have hm2ge : -(2 : ℤ) ^ K2 ≤ d2.m := by
      have h0 : (-32768 : ℤ) * 2 ^ K2 ≤ s * 2 ^ K2 :=
        mul_le_mul_of_nonneg_right hlo (by positivity)
      rw [← hm2] at h0
      have h1 : (-32768 : ℤ) * 2 ^ K2 = (-(2 : ℤ) ^ K2) * 32768 := by ring
      rw [h1] at h0
      exact le_of_mul_le_mul_right h0 (by norm_num)
    have hd2e_neg : d2.e < 0 := by
      rw [hd2e]
      push_cast at hsc2 ⊢
      omega
    have hnum2 : dyNum d2 = d2.m := dyNum_neg_e _ hd2e_neg
    have hden2 : dyDen d2 = 2 ^ K2 := by
      rw [dyDen_neg_e _ hd2e_neg, hd2e]
      simp [hK2def]
    have hp2K2' : (0 : ℤ) < 2 ^ K2 := by positivity
    -- step 3: the clamp keeps d2, the scale factor is 0x8000
    have hle1 : ¬(dyLE (dyInt 1) d2 = true) := by
      rw [dyLE, decide_eq_true_eq, hnum2, hden2, dyNum_dyInt, dyDen_dyInt]
      push_neg
      push_cast
      omega
    have hmin : dyMin (dyInt 1) d2 = d2 := by
      rw [dyMin, if_neg hle1]
    have hle2 : dyLE (dyInt (-1)) d2 = true := by
      rw [dyLE, decide_eq_true_eq, hnum2, hden2, dyNum_dyInt, dyDen_dyInt]
      push_cast
      omega
    have hmaxeq : dyMax (dyInt (-1)) (dyMin (dyInt 1) d2) = d2 := by
      rw [hmin, dyMax, if_pos hle2]
    have hltz : dyLT d2 (dyInt 0) = true := by
      rw [dyLT, decide_eq_true_eq, hnum2, hden2, dyNum_dyInt, dyDen_dyInt]
      push_cast
      omega
    -- step 4: the binary64 multiplication by 0x8000 is exact
    have hnum3ne : d2.m * 32768 ≠ 0 := by
      rw [hm2]
      exact mul_ne_zero hne (by positivity)
    have habs3 : (d2.m * 32768).natAbs = s.natAbs * 2 ^ K2 := by
      have h0 := congrArg Int.natAbs hm2
      simpa [Int.natAbs_mul, Int.natAbs_pow] using h0
    set E3 : ℤ := ratExpND (d2.m * 32768).natAbs (2 ^ K2) with hE3def
    set K3 : ℕ := (((53 : ℕ) : ℤ) - 1 - E3).toNat with hK3def
    have he3le : E3 ≤ 15 := by
      rw [hE3def]
      apply ratExpND_le_of_lt _ _ (by simpa [Int.natAbs_eq_zero] using hnum3ne) (by positivity)
      rw [habs3]
      have hlt : s.natAbs < 2 ^ 16 := by omega
      calc s.natAbs * 2 ^ K2 < 2 ^ 16 * 2 ^ K2 := by
            exact mul_lt_mul_of_pos_right hlt (by positivity)
        _ = 2 ^ K2 * 2 ^ (15 + 1) := by ring
    have hsc3 : 0 ≤ ((53 : ℕ) : ℤ) - 1 - E3 := by
      push_cast
      omega
    have hdvd3 : 2 ^ K2 ∣ (d2.m * 32768).natAbs * 2 ^ K3 := by
      refine ⟨s.natAbs * 2 ^ K3, ?_⟩
      rw [habs3]
      ring
    obtain ⟨hd3e, hd3m⟩ := rndQ_exact 53 (d2.m * 32768) (2 ^ K2) hnum3ne (by positivity)
      hsc3 hdvd3
    set d3 : Dy := rndQ 53 (d2.m * 32768) (2 ^ K2) with hd3def
    have hd3m' : d3.m * 2 ^ K2 = (d2.m * 32768) * 2 ^ K3 := by exact_mod_cast hd3m
    have hm3 : d3.m = s * 2 ^ K3 := by
      have hc : (2 : ℤ) ^ K2 ≠ 0 := by positivity
      apply mul_right_cancel₀ hc
      calc d3.m * 2 ^ K2 = (d2.m * 32768) * 2 ^ K3 := hd3m'
        _ = (s * 2 ^ K2) * 2 ^ K3 := by rw [hm2]
        _ = s * 2 ^ K3 * 2 ^ K2 := by ring
    have hd3e_neg : d3.e < 0 := by
      rw [hd3e]
      push_cast at hsc3 ⊢
      omega
    -- step 5: truncation and int16 wrap recover s
    have htr : dyTrunc d3 = s := by
      rw [dyTrunc, if_neg (by omega : ¬ 0 ≤ d3.e)]
      have hq : d3.m.natAbs / 2 ^ (-d3.e).toNat = s.natAbs := by
        have he : (-d3.e).toNat = K3 := by
          rw [hd3e]
          simp [hK3def]
        rw [he, hm3]
        rw [Int.natAbs_mul, Int.natAbs_pow]
        simp [Nat.mul_div_cancel]
      have hm3neg : d3.m < 0 := by
        rw [hm3]
        exact mul_neg_of_neg_of_pos hneg (by positivity)
      rw [if_pos hm3neg, hq]
      omega
    rw [hi2f, float32ToInt16Sample]
    simp only [hmaxeq, hltz, if_pos, ← hd2def]
    rw [show rndDy 53 ⟨d2.m * 32768, d2.e⟩ = d3 by
      rw [rndDy, dyNum_neg_e _ (by simpa using hd2e_neg), dyDen_neg_e _ (by simpa using hd2e_neg)]
      simp only [hd3def]
      congr 1
      rw [show (⟨d2.m * 32768, d2.e⟩ : Dy).e = d2.e from rfl, hd2e]
      simp [hK2def]]
    rw [htr]
    rw [toInt16Wrap]
    have hw : s % 65536 = s + 65536 := by omega
    rw [hw, if_pos (by omega)]
    omega

end Voice2Text

namespace Voice2Text

/-- C9 (counterexample): the float32 round trip is not the identity on
int16 arrays: the sample `1` maps to `1/32767`, whose binary32 rounding
is slightly below `1/32767`, so multiplying back by `0x7FFF` and
truncating yields `0`. -/
theorem roundtrip_not_identity :
    float32ToInt16 (int16ToFloat32 [1]) = [0] ∧ ([0] : List ℤ) ≠ [1] := by
  constructor
  · decide
  · decide

/-- C9 (amended): the round trip `float32ToInt16 ∘ int16ToFloat32`
restores every sample in `[-32768, 0]` exactly (the negative branch
divides by the power of two `0x8000`, so every rounding in the chain is
exact); positive samples may come back one smaller, as the
counterexample shows. -/
theorem roundtrip_exact_nonpos (l : List ℤ) (h : ∀ x ∈ l, -32768 ≤ x ∧ x ≤ 0) :
    float32ToInt16 (int16ToFloat32 l) = l := by
  unfold float32ToInt16 int16ToFloat32
  rw [List.map_map]
  have hcongr : ∀ x ∈ l, (float32ToInt16Sample ∘ int16ToFloat32Sample) x = id x := by
    intro x hx
    obtain ⟨h1, h2⟩ := h x hx
    simpa using sample_roundtrip_nonpos x h1 h2
  rw [List.map_congr_left hcongr, List.map_id]

/-- C9 (witness): the round trip applied to a concrete array of
non-positive samples. -/
theorem roundtrip_exact_nonpos_witness :
    (∀ x ∈ ([-32768, -1, 0] : List ℤ), -32768 ≤ x ∧ x ≤ 0) ∧
    float32ToInt16 (int16ToFloat32 [-32768, -1, 0]) = [-32768, -1, 0] := by
  exact ⟨by decide, roundtrip_exact_nonpos [-32768, -1, 0] (by decide)⟩

end Voice2Text
